import Mathlib

/-!
Shallow embedding of the retrieval core of `backend/rag.py` (class `RAGRetriever`):
the confidence classifier inlined in `safe_search`, the `safe_search` result loop,
the MMR selection algorithm of `advanced_mmr_retrieval`, and the routing logic of
`smart_search`.

Modelling conventions:
* Float distances and embedding coordinates become rationals (`ℚ`).
* The FAISS index and the encoded query are abstracted into a `RAGContext`:
  `searchFn k` is the row of `(identifier, L2-distance)` pairs that
  `self.index.search(query_embedding, k)` returns for the fixed query under
  consideration, `reconstructFn` is `self.index.reconstruct` (`none` models a
  raised `RuntimeError`), `queryEmb` the encoded query, `ntotal` the index size,
  and `metadata` the parallel metadata table.
* Fallible Python code becomes `Option`: a `none` result of `safe_search`,
  `advanced_mmr_retrieval` or `smart_search` models an uncaught exception
  (in particular the `IndexError` of an out-of-range list subscript).
* Python list subscription with a possibly negative index is `pyGet`.
* `np.argmax` is `argmaxFirst`: the index of the first occurrence of the maximum;
  the `-np.inf` scores appended for already-selected candidates are modelled by
  `⊥ : WithBot ℚ`.
-/

/-- One record of the metadata table (`self.metadata`), with the three keys the
retriever reads. -/
structure MetaRecord where
  chunk_text_en : String
  url : String
  title : String
  deriving DecidableEq

/-- A retrieval result dict as built by `safe_search` / `smart_search`.
`score` is `none` for the diversity results of the MMR branch (Python `None`). -/
structure SearchResult where
  content : String
  score : Option ℚ
  confidence : String
  source : String
  title : String
  deriving DecidableEq

/-- A result dict of `advanced_mmr_retrieval` (keys content, source, title only). -/
structure MMRResult where
  content : String
  source : String
  title : String
  deriving DecidableEq

/-- The routing decision dict returned by `smart_search`. -/
structure Decision where
  method : String
  confidence : String
  recommendation : String
  results : List SearchResult
  deriving DecidableEq

/-- The three ordinal confidence tiers of the spec. -/
inductive Tier where
  | Low
  | High
  | Medium
  deriving DecidableEq

/-- Interpretation of the code's confidence strings as spec tiers:
`"Highly Confident"` is High, `"Moderately Confident"` and the lowercase
`"medium"` written by the MMR branch are Medium, `"Low Confidence"` is Low. -/
def tierOf : String → Tier
  | "Highly Confident" => Tier.High
  | "Moderately Confident" => Tier.Medium
  | "medium" => Tier.Medium
  | _ => Tier.Low

/-- The confidence classifier inlined in `safe_search` (rag.py lines 111-118):
`dist < 0.5` low, `dist <= 0.8` high, `dist <= 1.2` medium, otherwise low. -/
def confidenceOf (dist : ℚ) : String :=
  if dist < 0.5 then "Low Confidence"
  else if dist ≤ 0.8 then "Highly Confident"
  else if dist ≤ 1.2 then "Moderately Confident"
  else "Low Confidence"

/-- The effective index of a Python subscript `xs[i]` on a list of length `n`:
negative indices count from the back. -/
def pyIdx (n : Nat) (i : ℤ) : ℤ :=
  if i < 0 then (n : ℤ) + i else i

/-- Python list subscription `xs[i]` with an `int` index: non-negative indices
address from the front, negative indices from the back, anything out of range
raises `IndexError` (modelled as `none`). -/
def pyGet {α : Type} (xs : List α) (i : ℤ) : Option α :=
  if h : 0 ≤ pyIdx xs.length i ∧ pyIdx xs.length i < (xs.length : ℤ) then
    some (xs.get ⟨(pyIdx xs.length i).toNat, by omega⟩)
  else none

/-- The result dict `safe_search` appends for a surviving `(idx, dist)` pair. -/
def mkSafeResult (m : MetaRecord) (dist : ℚ) : SearchResult :=
  { content := m.chunk_text_en
    score := some dist
    confidence := confidenceOf dist
    source := m.url
    title := m.title }

/-- The result loop of `safe_search` (rag.py lines 104-126) over the zipped
`(indices[0], distances[0])` rows: a row whose identifier is `>=
len(self.metadata)` is skipped; otherwise `self.metadata[idx]` is subscripted
(negative identifiers index from the back; an out-of-range subscript raises,
modelled as `none`). -/
def safe_search (metadata : List MetaRecord) : List (ℤ × ℚ) → Option (List SearchResult)
  | [] => some []
  | (idx, dist) :: rest =>
    if (metadata.length : ℤ) ≤ idx then safe_search metadata rest
    else
      match pyGet metadata idx, safe_search metadata rest with
      | some m, some rs => some (mkSafeResult m dist :: rs)
      | _, _ => none

/-- Dot product `np.dot` of two equal-length vectors. -/
def dotQ (a b : List ℚ) : ℚ := (List.zipWith (fun x y => x * y) a b).sum

/-- Binary maximum on `ℚ` written out so that it reduces in the kernel. -/
def ratMax (a b : ℚ) : ℚ := if a ≤ b then b else a

/-- Python `max(xs) if xs else d`: maximum of a nonempty list, default otherwise. -/
def listMaxD : List ℚ → ℚ → ℚ
  | [], d => d
  | x :: xs, _ => xs.foldl ratMax x

/-- The MMR score of one candidate (rag.py lines 186-201): `-np.inf` (here `⊥`)
if the candidate's identifier is already selected, otherwise
`lambda * relevance - (1 - lambda) * diversity` where relevance is the dot
product with the query embedding and diversity the maximum dot product with an
already selected embedding (0 if nothing is selected yet). -/
def mmrScore (queryEmb : List ℚ) (lam : ℚ) (selected : List ℤ)
    (selEmbs : List (List ℚ)) (cid : ℤ) (cemb : List ℚ) : WithBot ℚ :=
  if cid ∈ selected then ⊥
  else
    let relevance := dotQ queryEmb cemb
    let diversity := listMaxD (selEmbs.map fun s => dotQ cemb s) 0
    ((lam * relevance - (1 - lam) * diversity : ℚ) : WithBot ℚ)

/-- Binary maximum on `WithBot ℚ` written out so that it reduces in the kernel. -/
def wbMax : WithBot ℚ → WithBot ℚ → WithBot ℚ
  | none, b => b
  | some x, none => some x
  | some x, some y => some (ratMax x y)

/-- `np.argmax`: index of the first occurrence of the maximum value (0 for the
empty list, which the code never hits). -/
def argmaxFirst (l : List (WithBot ℚ)) : Nat :=
  l.findIdx fun s => decide (s = l.foldl wbMax ⊥)

/-- The greedy selection loop of `advanced_mmr_retrieval` (rag.py lines
179-206), running a fixed number of iterations: the first pick is position 0,
every later pick the argmax of the MMR scores of all candidate positions. -/
def mmrLoop (queryEmb : List ℚ) (cands : List (ℤ × List ℚ)) (lam : ℚ) :
    Nat → List ℤ → List (List ℚ) → List ℤ
  | 0, selected, _ => selected
  | t + 1, selected, selEmbs =>
    let best : Nat :=
      if selected.isEmpty then 0
      else argmaxFirst (cands.map fun c => mmrScore queryEmb lam selected selEmbs c.1 c.2)
    let c := cands.getD best (0, [])
    mmrLoop queryEmb cands lam t (selected ++ [c.1]) (selEmbs ++ [c.2])

/-- The full MMR selection: `min k |candidates|` iterations starting from an
empty selection, returning the selected identifiers in pick order. -/
def mmrSelect (queryEmb : List ℚ) (cands : List (ℤ × List ℚ)) (lam : ℚ) (k : Nat) : List ℤ :=
  mmrLoop queryEmb cands lam (min k cands.length) [] []

/-- Sequence a fallible map over a list, left to right, failing at the first
failure — the effect order of a Python list comprehension whose body may raise. -/
def mapOption {α β : Type} (g : α → Option β) : List α → Option (List β)
  | [] => some []
  | a :: l =>
    match g a, mapOption g l with
    | some b, some bs => some (b :: bs)
    | _, _ => none

/-- The result-building list comprehension shared by the fallback and the main
path of `advanced_mmr_retrieval` (rag.py lines 166-173 and 209-216):
`[{...} for idx in ids if idx < len(self.metadata)]`, subscripting
`self.metadata[idx]` for every identifier that survives the filter
(a raising subscript is `none`). -/
def buildDocs (metadata : List MetaRecord) (ids : List ℤ) : Option (List MMRResult) :=
  mapOption (fun idx => (pyGet metadata idx).map fun m => MMRResult.mk m.chunk_text_en m.url m.title)
    (ids.filter fun idx => idx < (metadata.length : ℤ))

/-- Abstraction of one `RAGRetriever` together with one fixed encoded query:
`searchFn k` is the `(identifier, distance)` row list `self.index.search`
returns for this query at size `k`, `reconstructFn` is
`self.index.reconstruct` with `none` for a raised `RuntimeError`. -/
structure RAGContext where
  metadata : List MetaRecord
  ntotal : Nat
  searchFn : Nat → List (ℤ × ℚ)
  reconstructFn : ℤ → Option (List ℚ)
  queryEmb : List ℚ

/-- `advanced_mmr_retrieval` (rag.py lines 133-219): fetch `min(k*2, ntotal)`
candidates, reconstruct all their vectors; if any reconstruction raises, fall
back to the first `k` candidates unchanged, otherwise run the greedy MMR
selection and build results from the selected identifiers. -/
def advanced_mmr_retrieval (ctx : RAGContext) (k : Nat) (lam : ℚ) : Option (List MMRResult) :=
  let fetch_k := min (k * 2) ctx.ntotal
  let candidate_indices := (ctx.searchFn fetch_k).map Prod.fst
  match mapOption ctx.reconstructFn candidate_indices with
  | none => buildDocs ctx.metadata (candidate_indices.take k)
  | some embs =>
    buildDocs ctx.metadata (mmrSelect ctx.queryEmb (candidate_indices.zip embs) lam k)

/-- The off-topic test of `smart_search` (rag.py line 244):
`safe_results and safe_results[0]['score'] < 0.55`. The `none` score branch is
unreachable because `safe_search` always stores a score. -/
def offTopicCheck : List SearchResult → Bool
  | [] => false
  | r :: _ =>
    match r.score with
    | some s => decide (s < 0.55)
    | none => false

/-- `sum(1 for r in safe_results if r["confidence"] == "Highly Confident")`. -/
def high_count (rs : List SearchResult) : Nat :=
  (rs.filter fun r => r.confidence = "Highly Confident").length

/-- `sum(1 for r in safe_results if r["confidence"] == "Low Confidence")`. -/
def low_count (rs : List SearchResult) : Nat :=
  (rs.filter fun r => r.confidence = "Low Confidence").length

/-- The override `result['confidence'] = "Low Confidence"` of the off-topic
branch. -/
def tierOverrideLow (r : SearchResult) : SearchResult :=
  { r with confidence := "Low Confidence" }

/-- The re-tagging `{**r, "score": None, "confidence": "medium"}` applied to
every MMR result in the diversify branch of `smart_search`. -/
def mmrToSearchResult (r : MMRResult) : SearchResult :=
  { content := r.content
    score := none
    confidence := "medium"
    source := r.source
    title := r.title }

/-- The routing logic of `smart_search` (rag.py lines 243-291) applied to the
already-computed safe results: off-topic override first, then the
`high_count >= k // 2` and `low_count >= k // 2` tests against the requested
`k`, else the MMR branch with `k*2` and `lambda_mult=0.5`. -/
def routeDecision (ctx : RAGContext) (k : Nat) (safe_results : List SearchResult) :
    Option Decision :=
  if offTopicCheck safe_results then
    some (Decision.mk "safe_search" "low" "DO_NOT_ANSWER" (safe_results.map tierOverrideLow))
  else if k / 2 ≤ high_count safe_results then
    some (Decision.mk "safe_search" "high" "SAFE_TO_ANSWER" safe_results)
  else if k / 2 ≤ low_count safe_results then
    some (Decision.mk "safe_search" "low" "DO_NOT_ANSWER" safe_results)
  else
    match advanced_mmr_retrieval ctx (k * 2) 0.5 with
    | none => none
    | some mmr_results =>
      some (Decision.mk "mmr_retrieval" "medium" "REVIEW_BEFORE_ANSWERING"
        (mmr_results.map mmrToSearchResult))

/-- `smart_search` (rag.py lines 221-291): run `safe_search` on the first-pass
index search at `k`, then route. -/
def smart_search (ctx : RAGContext) (k : Nat) : Option Decision :=
  match safe_search ctx.metadata (ctx.searchFn k) with
  | none => none
  | some safe_results => routeDecision ctx k safe_results

/-- A generic metadata record used by the concrete scenarios below. -/
def recA : MetaRecord := MetaRecord.mk "chunk" "http://example.org/a" "Title A"

/-- FAISS pads missing neighbors with identifier `-1` and an `FLT_MAX` distance;
this is that sentinel distance (`3.4028235e38`) as a rational. -/
def sentinelDist : ℚ := 34028235 * 10 ^ 31

/-- Scenario for claim C1: both neighbors at distance `>= 0.55`, both in the
High band of the classifier. -/
def ctxC1 : RAGContext :=
  RAGContext.mk [recA] 1 (fun _ => [(0, 0.6), (0, 0.7)]) (fun _ => some [1]) [1]

/-- Scenario for the amended claim C1: a single neighbor at distance `0.5`,
below the `0.55` off-topic floor. -/
def ctxC1w : RAGContext :=
  RAGContext.mk [recA] 1 (fun _ => [(0, 0.5)]) (fun _ => some [1]) [1]

/-- Scenario for claim C3: empty index and empty metadata table; the index
search pads all `k` rows with the `(-1, FLT_MAX)` sentinel. -/
def ctxC3empty : RAGContext :=
  RAGContext.mk [] 0 (fun k => List.replicate k (-1, sentinelDist)) (fun _ => some [1]) [1]

/-- Scenario for claim C3: empty index but a nonempty metadata table. -/
def ctxC3meta : RAGContext :=
  RAGContext.mk [recA] 0 (fun k => List.replicate k (-1, sentinelDist)) (fun _ => some [1]) [1]

/-- Scenario for claim C3: the neighbor list comes back empty. -/
def ctxC3nores : RAGContext :=
  RAGContext.mk [recA] 0 (fun _ => []) (fun _ => some [1]) [1]

/-- Scenario for claim C4: the search returns a single result (High tier,
distance 0.6) although `k = 5` is requested. -/
def ctxC4 : RAGContext :=
  RAGContext.mk [recA] 1 (fun _ => [(0, 0.6)]) (fun _ => some [1]) [1]

/-- Scenario for the amended claim C4: same shape as `ctxC4` but with a Low
tier distance, so that the `low_count` threshold is exercised. -/
def ctxC4w : RAGContext :=
  RAGContext.mk [recA] 1 (fun _ => [(0, 2)]) (fun _ => some [1]) [1]

/-- Scenario for claim C5: both neighbors classify High, but the nearest
distance `0.52` lies below the `0.55` off-topic floor. -/
def ctxC5 : RAGContext :=
  RAGContext.mk [recA] 1 (fun _ => [(0, 0.52), (0, 0.6)]) (fun _ => some [1]) [1]

/-- Scenario for the amended claim C5: both neighbors High, nearest at 0.6. -/
def ctxC5w : RAGContext :=
  RAGContext.mk [recA] 1 (fun _ => [(0, 0.6), (0, 0.7)]) (fun _ => some [1]) [1]

/-- Scenario for claim C6: one Medium neighbor, so neither count threshold is
met and the router diversifies. -/
def ctxC6w : RAGContext :=
  RAGContext.mk [recA] 1 (fun _ => [(0, 1)]) (fun _ => some [1]) [1]

/-- Scenario for claim C9: the index does not support reconstruction. -/
def ctxC9w : RAGContext :=
  RAGContext.mk [recA] 1 (fun _ => [(0, 0.9)]) (fun _ => none) [1]

/-- The result record `advanced_mmr_retrieval` builds for a metadata-valid
identifier (total version, for stating what the comprehension produces when no
subscript raises). -/
def docAt (metadata : List MetaRecord) (idx : ℤ) : MMRResult :=
  match pyGet metadata idx with
  | some m => MMRResult.mk m.chunk_text_en m.url m.title
  | none => MMRResult.mk "" "" ""

/-- Top-k-by-relevance order, from the spec of the MMR Selector: stable-sort
the candidates by decreasing dot product with the query (ties keep the rank the
index search returned), take the first `k`, and project the identifiers. -/
def topkByRelevance (q : List ℚ) (cands : List (ℤ × List ℚ)) (k : Nat) : List ℤ :=
  ((cands.mergeSort fun a b => decide (dotQ q b.2 ≤ dotQ q a.2)).take k).map Prod.fst

theorem ratMax_eq_max (a b : ℚ) : ratMax a b = max a b :=
  (max_def a b).symm

theorem wbMax_eq_max (a b : WithBot ℚ) : wbMax a b = max a b := by
  match a, b with
  | none, b => exact (max_eq_right (bot_le : (⊥ : WithBot ℚ) ≤ b)).symm
  | some x, none => exact (max_eq_left (bot_le : (⊥ : WithBot ℚ) ≤ some x)).symm
  | some x, some y =>
    rw [show wbMax (some x) (some y) = some (ratMax x y) from rfl, ratMax_eq_max]
    exact WithBot.coe_max x y

theorem foldl_wbMax_eq_foldl_max (l : List (WithBot ℚ)) (b : WithBot ℚ) :
    l.foldl wbMax b = l.foldl max b := by
  induction l generalizing b with
  | nil => rfl
  | cons a l ih => simp [List.foldl, wbMax_eq_max, ih]

theorem init_le_foldl_max (l : List (WithBot ℚ)) (b : WithBot ℚ) : b ≤ l.foldl max b := by
  induction l generalizing b with
  | nil => exact le_rfl
  | cons a l ih => exact le_trans (le_max_left b a) (ih (max b a))

theorem le_foldl_max {l : List (WithBot ℚ)} {x : WithBot ℚ} (hx : x ∈ l) (b : WithBot ℚ) :
    x ≤ l.foldl max b := by
  induction l generalizing b with
  | nil => cases hx
  | cons a l ih =>
    rcases List.mem_cons.1 hx with rfl | h
    · exact le_trans (le_max_right b x) (init_le_foldl_max l (max b x))
    · exact ih h (max b a)

theorem foldl_max_mem (l : List (WithBot ℚ)) (b : WithBot ℚ) :
    l.foldl max b ∈ l ∨ l.foldl max b = b := by
  induction l generalizing b with
  | nil => exact Or.inr rfl
  | cons a l ih =>
    simp only [List.foldl_cons]
    rcases ih (max b a) with h | h
    · exact Or.inl (List.mem_cons_of_mem a h)
    · rcases max_choice b a with hba | hba
      · exact Or.inr (h.trans hba)
      · exact Or.inl (by rw [h, hba]; exact List.mem_cons_self a l)


theorem findIdx_getD_false {p : WithBot ℚ → Bool} {l : List (WithBot ℚ)} {j : Nat}
    (hj : j < l.findIdx p) : p (l.getD j ⊥) = false := by
  induction l generalizing j with
  | nil => rw [List.findIdx_nil] at hj; exact absurd hj (Nat.not_lt_zero j)
  | cons a l ih =>
    rw [List.findIdx_cons] at hj
    cases hja : p a with
    | true => rw [hja] at hj; simp at hj
    | false =>
      rw [hja] at hj
      simp only [cond_false] at hj
      cases j with
      | zero => simpa using hja
      | succ j => rw [List.getD_cons_succ]; exact ih (by omega)

theorem findIdx_getD_true {p : WithBot ℚ → Bool} {l : List (WithBot ℚ)}
    (h : l.findIdx p < l.length) : p (l.getD (l.findIdx p) ⊥) = true := by
  induction l with
  | nil => simp at h
  | cons a l ih =>
    rw [List.findIdx_cons] at h ⊢
    cases hja : p a with
    | true => simp only [hja, cond_true, List.getD_cons_zero]
    | false =>
      simp only [hja, cond_false] at h ⊢
      rw [List.getD_cons_succ]
      exact ih (by simpa using Nat.lt_of_succ_lt_succ h)

theorem findIdx_lt_of_exists {p : WithBot ℚ → Bool} {l : List (WithBot ℚ)} {x : WithBot ℚ}
    (hx : x ∈ l) (hpx : p x = true) : l.findIdx p < l.length := by
  induction l with
  | nil => cases hx
  | cons a l ih =>
    rw [List.findIdx_cons]
    cases hja : p a with
    | true => simp [hja]
    | false =>
      simp only [hja, cond_false, List.length_cons]
      rcases List.mem_cons.1 hx with rfl | h
      · rw [hja] at hpx; cases hpx
      · exact Nat.succ_lt_succ (ih h)

theorem argmaxFirst_lt_length {l : List (WithBot ℚ)} (hl : l ≠ []) :
    argmaxFirst l < l.length := by
  rcases foldl_max_mem l ⊥ with h | h
  · exact findIdx_lt_of_exists h
      (by rw [foldl_wbMax_eq_foldl_max]; exact decide_eq_true rfl)
  · obtain ⟨a, l', rfl⟩ := List.exists_cons_of_ne_nil hl
    refine findIdx_lt_of_exists (List.mem_cons_self a l') ?_
    have ha : a ≤ (⊥ : WithBot ℚ) := h ▸ le_foldl_max (List.mem_cons_self a l') ⊥
    rw [foldl_wbMax_eq_foldl_max, h]
    exact decide_eq_true (le_bot_iff.1 ha)

theorem argmaxFirst_getD {l : List (WithBot ℚ)} (hl : l ≠ []) :
    l.getD (argmaxFirst l) ⊥ = l.foldl wbMax ⊥ := by
  have htrue := findIdx_getD_true (p := fun s => decide (s = l.foldl wbMax ⊥))
    (argmaxFirst_lt_length hl)
  exact of_decide_eq_true htrue

theorem argmaxFirst_first {l : List (WithBot ℚ)} {j : Nat} (hj : j < argmaxFirst l) :
    l.getD j ⊥ ≠ l.foldl wbMax ⊥ := by
  have hfalse := findIdx_getD_false (p := fun s => decide (s = l.foldl wbMax ⊥)) hj
  exact of_decide_eq_false hfalse

theorem getD_le_foldl_wbMax {l : List (WithBot ℚ)} {j : Nat} (hjl : j < l.length) :
    l.getD j ⊥ ≤ l.foldl wbMax ⊥ := by
  rw [foldl_wbMax_eq_foldl_max]
  apply le_foldl_max _ ⊥
  rw [List.getD_eq_getElem l ⊥ hjl]
  exact List.getElem_mem hjl

theorem pyGet_eq_some_of_nonneg {α : Type} {xs : List α} {i : ℤ} (h0 : 0 ≤ i)
    (h1 : i < (xs.length : ℤ)) : ∃ m, pyGet xs i = some m := by
  have hpy : pyIdx xs.length i = i := by unfold pyIdx; rw [if_neg (by omega)]
  unfold pyGet
  rw [dif_pos (by rw [hpy]; exact ⟨h0, h1⟩)]
  exact ⟨_, rfl⟩

theorem pyGet_nil {α : Type} (i : ℤ) : pyGet ([] : List α) i = none := by
  unfold pyGet
  rw [dif_neg]
  rintro ⟨ha, hb⟩
  simp only [List.length_nil, Nat.cast_zero] at ha hb
  omega

theorem pyGet_neg_one_getLast {α : Type} (xs : List α) (h : xs ≠ []) :
    pyGet xs (-1) = some (xs.getLast h) := by
  have hlen : 0 < xs.length := List.length_pos.2 h
  have hpy : pyIdx xs.length (-1) = (xs.length : ℤ) - 1 := by
    unfold pyIdx
    rw [if_pos (by omega)]
    ring
  unfold pyGet
  rw [dif_pos (by rw [hpy]; omega)]
  rw [List.getLast_eq_get]
  congr 1
  apply congrArg xs.get
  apply Fin.ext
  show (pyIdx xs.length (-1)).toNat = xs.length - 1
  rw [hpy]
  omega

theorem mapOption_eq_some_map {α β : Type} (g : α → Option β) (f : α → β) (l : List α)
    (h : ∀ a ∈ l, g a = some (f a)) : mapOption g l = some (l.map f) := by
  induction l with
  | nil => rfl
  | cons a l ih =>
    have ha := h a (List.mem_cons_self a l)
    have hl := ih fun x hx => h x (List.mem_cons_of_mem a hx)
    simp only [mapOption, ha, hl, List.map_cons]

theorem mapOption_eq_none {α β : Type} (g : α → Option β) (l : List α) {a : α}
    (ha : a ∈ l) (hga : g a = none) : mapOption g l = none := by
  induction l with
  | nil => cases ha
  | cons b l ih =>
    rcases List.mem_cons.1 ha with rfl | h
    · simp only [mapOption, hga]
    · simp only [mapOption, ih h]
      cases g b <;> rfl

theorem safe_search_skip {metadata : List MetaRecord} {i : ℤ} (d : ℚ) (rest : List (ℤ × ℚ))
    (h : (metadata.length : ℤ) ≤ i) :
    safe_search metadata ((i, d) :: rest) = safe_search metadata rest := by
  simp only [safe_search]
  rw [if_pos h]

theorem safe_search_cons_some {metadata : List MetaRecord} {i : ℤ} {d : ℚ}
    {rest : List (ℤ × ℚ)} {m : MetaRecord} {rs : List SearchResult}
    (hlt : i < (metadata.length : ℤ)) (hm : pyGet metadata i = some m)
    (hr : safe_search metadata rest = some rs) :
    safe_search metadata ((i, d) :: rest) = some (mkSafeResult m d :: rs) := by
  simp only [safe_search]
  rw [if_neg (by omega), hm, hr]

theorem safe_search_cons_err {metadata : List MetaRecord} {i : ℤ} {d : ℚ}
    {rest : List (ℤ × ℚ)} (hlt : i < (metadata.length : ℤ)) (hm : pyGet metadata i = none) :
    safe_search metadata ((i, d) :: rest) = none := by
  simp only [safe_search]
  rw [if_neg (by omega), hm]

theorem smart_search_eq_route {ctx : RAGContext} {k : Nat} {rs : List SearchResult}
    (h : safe_search ctx.metadata (ctx.searchFn k) = some rs) :
    smart_search ctx k = routeDecision ctx k rs := by
  simp only [smart_search, h]

theorem routeDecision_offTopic {ctx : RAGContext} {k : Nat} {rs : List SearchResult}
    (h : offTopicCheck rs = true) :
    routeDecision ctx k rs =
      some (Decision.mk "safe_search" "low" "DO_NOT_ANSWER" (rs.map tierOverrideLow)) := by
  simp only [routeDecision, h, if_true]

theorem routeDecision_high {ctx : RAGContext} {k : Nat} {rs : List SearchResult}
    (h : offTopicCheck rs = false) (hh : k / 2 ≤ high_count rs) :
    routeDecision ctx k rs = some (Decision.mk "safe_search" "high" "SAFE_TO_ANSWER" rs) := by
  simp only [routeDecision, h, Bool.false_eq_true, if_false]
  rw [if_pos hh]

theorem routeDecision_low {ctx : RAGContext} {k : Nat} {rs : List SearchResult}
    (h : offTopicCheck rs = false) (hh : high_count rs < k / 2) (hl : k / 2 ≤ low_count rs) :
    routeDecision ctx k rs = some (Decision.mk "safe_search" "low" "DO_NOT_ANSWER" rs) := by
  simp only [routeDecision, h, Bool.false_eq_true, if_false]
  rw [if_neg (by omega), if_pos hl]

theorem routeDecision_else {ctx : RAGContext} {k : Nat} {rs : List SearchResult}
    (h : offTopicCheck rs = false) (hh : high_count rs < k / 2) (hl : low_count rs < k / 2) :
    routeDecision ctx k rs = (advanced_mmr_retrieval ctx (k * 2) 0.5).map fun ms =>
      Decision.mk "mmr_retrieval" "medium" "REVIEW_BEFORE_ANSWERING" (ms.map mmrToSearchResult) := by
  simp only [routeDecision, h, Bool.false_eq_true, if_false]
  rw [if_neg (by omega), if_neg (by omega)]
  cases advanced_mmr_retrieval ctx (k * 2) 0.5 <;> rfl

/-- C2: the confidence classifier applied to each retrieved distance is total
and deterministic (it is a function), and maps `d < 0.5` to Low,
`0.5 ≤ d ≤ 0.8` to High, `0.8 < d ≤ 1.2` to Medium and `d > 1.2` to Low; in
particular 0.3 ↦ Low, 0.65 ↦ High, 1.0 ↦ Medium, 2.0 ↦ Low. -/
theorem C2_classifier_bands (d : ℚ) :
    (d < 0.5 → tierOf (confidenceOf d) = Tier.Low) ∧
    (0.5 ≤ d → d ≤ 0.8 → tierOf (confidenceOf d) = Tier.High) ∧
    (0.8 < d → d ≤ 1.2 → tierOf (confidenceOf d) = Tier.Medium) ∧
    (1.2 < d → tierOf (confidenceOf d) = Tier.Low) ∧
    tierOf (confidenceOf 0.3) = Tier.Low ∧
    tierOf (confidenceOf 0.65) = Tier.High ∧
    tierOf (confidenceOf 1) = Tier.Medium ∧
    tierOf (confidenceOf 2) = Tier.Low := by
  refine ⟨?_, ?_, ?_, ?_, ?_, ?_, ?_, ?_⟩
  · intro h
    unfold confidenceOf
    rw [if_pos h]
    rfl
  · intro h1 h2
    unfold confidenceOf
    rw [if_neg (not_lt.2 h1), if_pos h2]
    rfl
  · intro h1 h2
    unfold confidenceOf
    rw [if_neg (by linarith), if_neg (by linarith), if_pos h2]
    rfl
  · intro h
    unfold confidenceOf
    rw [if_neg (by linarith), if_neg (by linarith), if_neg (by linarith)]
    rfl
  · with_unfolding_all rfl
  · with_unfolding_all rfl
  · with_unfolding_all rfl
  · with_unfolding_all rfl

/-- C2 witness: the High band of the classifier at the concrete distance 0.65. -/
theorem C2_classifier_bands_witness : tierOf (confidenceOf 0.65) = Tier.High :=
  (C2_classifier_bands 0.65).2.1 (by norm_num) (by norm_num)

/-- C1 counterexample: the nearest neighbor of `ctxC1` is at raw L2 distance
0.6, which is at or above the off-topic floor 0.55, yet `smart_search` returns
recommendation `SAFE_TO_ANSWER` — not `DO_NOT_ANSWER` as the claim requires. -/
theorem C1_counterexample :
    ctxC1.searchFn 2 = [(0, 0.6), (0, 0.7)] ∧ ((0.55 : ℚ) ≤ 0.6) ∧
    (smart_search ctxC1 2).map Decision.recommendation = some "SAFE_TO_ANSWER" := by
  refine ⟨rfl, by norm_num, ?_⟩
  with_unfolding_all rfl

/-- C1 amended: the off-topic override fires on the opposite comparison — when
the first retrieved neighbor's raw distance is strictly BELOW the 0.55 floor,
`smart_search` overrides every retrieved result's tier to Low and returns
recommendation `DO_NOT_ANSWER` with method `"safe_search"`, regardless of `k`
or the tiers of the remaining neighbors. -/
theorem C1_amended_off_topic (ctx : RAGContext) (k : Nat) (i : ℤ) (d : ℚ)
    (rest : List (ℤ × ℚ)) (rs : List SearchResult)
    (hsearch : ctx.searchFn k = (i, d) :: rest)
    (h0 : 0 ≤ i) (h1 : i < (ctx.metadata.length : ℤ))
    (hrest : safe_search ctx.metadata rest = some rs)
    (hd : d < 0.55) :
    ∃ dec : Decision, smart_search ctx k = some dec ∧
      dec.method = "safe_search" ∧ dec.recommendation = "DO_NOT_ANSWER" ∧
      ∀ r ∈ dec.results, r.confidence = "Low Confidence" := by
  obtain ⟨m, hm⟩ := pyGet_eq_some_of_nonneg h0 h1
  have hsafe : safe_search ctx.metadata (ctx.searchFn k) =
      some (mkSafeResult m d :: rs) := by
    rw [hsearch]
    exact safe_search_cons_some h1 hm hrest
  have hot : offTopicCheck (mkSafeResult m d :: rs) = true := by
    unfold offTopicCheck mkSafeResult
    exact decide_eq_true hd
  refine ⟨_, (smart_search_eq_route hsafe).trans (routeDecision_offTopic hot), rfl, rfl, ?_⟩
  intro r hr
  obtain ⟨x, _, rfl⟩ := List.mem_map.1 hr
  rfl

/-- C1 amended witness: a single neighbor at distance 0.5 < 0.55 yields the
off-topic `DO_NOT_ANSWER` decision. -/
theorem C1_amended_off_topic_witness :
    ∃ dec : Decision, smart_search ctxC1w 1 = some dec ∧
      dec.method = "safe_search" ∧ dec.recommendation = "DO_NOT_ANSWER" ∧
      ∀ r ∈ dec.results, r.confidence = "Low Confidence" :=
  C1_amended_off_topic ctxC1w 1 0 0.5 [] [] rfl (by norm_num)
    (by with_unfolding_all decide) rfl (by norm_num)

/-- C3, evaluated at the failing inputs: with an empty index FAISS pads every
row with the `(-1, FLT_MAX)` sentinel; on an empty metadata table `smart_search`
raises `IndexError` (modelled `none`) instead of refusing gracefully; on a
nonempty metadata table it returns `DO_NOT_ANSWER` but with 5 fabricated
results instead of an empty list; and when the neighbor list comes back empty
it returns `REVIEW_BEFORE_ANSWERING`, not `DO_NOT_ANSWER`. -/
theorem C3_empty_index_eval :
    smart_search ctxC3empty 5 = none ∧
    (smart_search ctxC3meta 5).map (fun d => (d.recommendation, d.results.length)) =
      some ("DO_NOT_ANSWER", 5) ∧
    smart_search ctxC3nores 5 =
      some (Decision.mk "mmr_retrieval" "medium" "REVIEW_BEFORE_ANSWERING" []) := by
  refine ⟨?_, ?_, ?_⟩ <;> with_unfolding_all rfl

/-- C4 counterexample: `ctxC4` at `k = 5` gets a single result back (High tier,
so `high_count = 1`); half of the ACTUAL count is `1 / 2 = 0 ≤ 1`, so the claim
predicts `SAFE_TO_ANSWER`, but the code compares against the requested
`5 / 2 = 2` and routes to the MMR branch, answering `REVIEW_BEFORE_ANSWERING`. -/
theorem C4_counterexample :
    safe_search ctxC4.metadata (ctxC4.searchFn 5) = some [mkSafeResult recA 0.6] ∧
    high_count [mkSafeResult recA 0.6] = 1 ∧ (1 : Nat) / 2 ≤ 1 ∧
    (smart_search ctxC4 5).map Decision.recommendation = some "REVIEW_BEFORE_ANSWERING" := by
  refine ⟨?_, ?_, ?_, ?_⟩ <;> with_unfolding_all decide

/-- C4 amended: when the index search returns fewer than `k` results (including
zero), `smart_search` treats this as a non-error and still evaluates its
high-count and low-count thresholds as `k / 2` (integer division) of the
REQUESTED `k`, not of the actual number of results returned. -/
theorem C4_amended_requested_k (ctx : RAGContext) (k : Nat) (rs : List SearchResult)
    (hsafe : safe_search ctx.metadata (ctx.searchFn k) = some rs)
    (hlen : rs.length < k)
    (hot : offTopicCheck rs = false) :
    (k / 2 ≤ high_count rs →
      smart_search ctx k = some (Decision.mk "safe_search" "high" "SAFE_TO_ANSWER" rs)) ∧
    (high_count rs < k / 2 → k / 2 ≤ low_count rs →
      smart_search ctx k = some (Decision.mk "safe_search" "low" "DO_NOT_ANSWER" rs)) ∧
    (high_count rs < k / 2 → low_count rs < k / 2 →
      smart_search ctx k = (advanced_mmr_retrieval ctx (k * 2) 0.5).map fun ms =>
        Decision.mk "mmr_retrieval" "medium" "REVIEW_BEFORE_ANSWERING"
          (ms.map mmrToSearchResult)) := by
  refine ⟨fun hh => ?_, fun hh hl => ?_, fun hh hl => ?_⟩
  · exact (smart_search_eq_route hsafe).trans (routeDecision_high hot hh)
  · exact (smart_search_eq_route hsafe).trans (routeDecision_low hot hh hl)
  · exact (smart_search_eq_route hsafe).trans (routeDecision_else hot hh hl)

/-- C4 amended witness: one Low result returned for requested `k = 2`; the
`low_count >= 2 / 2` test fires against the requested `k`. -/
theorem C4_amended_requested_k_witness :
    smart_search ctxC4w 2 =
      some (Decision.mk "safe_search" "low" "DO_NOT_ANSWER" [mkSafeResult recA 2]) :=
  (C4_amended_requested_k ctxC4w 2 [mkSafeResult recA 2] (by with_unfolding_all rfl)
      (by norm_num) (by with_unfolding_all rfl)).2.1
    (by with_unfolding_all decide) (by with_unfolding_all decide)

/-- C5 counterexample: in `ctxC5` both of the `k = 2` retrieved neighbors are
tiered High (`high_count = 2 ≥ 2 / 2`), yet `smart_search` answers
`DO_NOT_ANSWER`, because the nearest distance 0.52 trips the 0.55 off-topic
override first. -/
theorem C5_counterexample :
    safe_search ctxC5.metadata (ctxC5.searchFn 2) =
      some [mkSafeResult recA 0.52, mkSafeResult recA 0.6] ∧
    (2 : Nat) / 2 ≤ high_count [mkSafeResult recA 0.52, mkSafeResult recA 0.6] ∧
    (smart_search ctxC5 2).map Decision.recommendation = some "DO_NOT_ANSWER" := by
  refine ⟨?_, ?_, ?_⟩ <;> with_unfolding_all decide

/-- C5 amended: if the off-topic override does not fire and at least `k / 2`
(integer division) of the retrieved neighbors are tiered High, `smart_search`
returns recommendation `SAFE_TO_ANSWER` with method `"safe_search"`, carrying
the tiered results unchanged. -/
theorem C5_amended_high_route (ctx : RAGContext) (k : Nat) (rs : List SearchResult)
    (hsafe : safe_search ctx.metadata (ctx.searchFn k) = some rs)
    (hot : offTopicCheck rs = false)
    (hh : k / 2 ≤ high_count rs) :
    smart_search ctx k = some (Decision.mk "safe_search" "high" "SAFE_TO_ANSWER" rs) :=
  (smart_search_eq_route hsafe).trans (routeDecision_high hot hh)

/-- C5 amended witness: two High neighbors at distances 0.6 and 0.7 for
`k = 2` produce `SAFE_TO_ANSWER` with the results unchanged. -/
theorem C5_amended_high_route_witness :
    smart_search ctxC5w 2 = some (Decision.mk "safe_search" "high" "SAFE_TO_ANSWER"
      [mkSafeResult recA 0.6, mkSafeResult recA 0.7]) :=
  C5_amended_high_route ctxC5w 2 [mkSafeResult recA 0.6, mkSafeResult recA 0.7]
    (by with_unfolding_all rfl) (by with_unfolding_all rfl) (by with_unfolding_all decide)

/-- C6: when the off-topic override did not fire and neither count threshold is
met, `smart_search` re-retrieves through `advanced_mmr_retrieval` with `k * 2`
and `lambda = 0.5` and returns recommendation `REVIEW_BEFORE_ANSWERING` with
method `"mmr_retrieval"`, every returned result carrying tier Medium and a null
distance. -/
theorem C6_diversify (ctx : RAGContext) (k : Nat) (rs : List SearchResult)
    (ms : List MMRResult)
    (hsafe : safe_search ctx.metadata (ctx.searchFn k) = some rs)
    (hot : offTopicCheck rs = false)
    (hh : high_count rs < k / 2) (hl : low_count rs < k / 2)
    (hmmr : advanced_mmr_retrieval ctx (k * 2) 0.5 = some ms) :
    smart_search ctx k = some (Decision.mk "mmr_retrieval" "medium" "REVIEW_BEFORE_ANSWERING"
      (ms.map mmrToSearchResult)) ∧
    ∀ r ∈ ms.map mmrToSearchResult, tierOf r.confidence = Tier.Medium ∧ r.score = none := by
  constructor
  · rw [smart_search_eq_route hsafe, routeDecision_else hot hh hl, hmmr]
    rfl
  · intro r hr
    obtain ⟨x, _, rfl⟩ := List.mem_map.1 hr
    exact ⟨rfl, rfl⟩

/-- C6 witness: one Medium neighbor for `k = 2` routes to the MMR branch. -/
theorem C6_diversify_witness :
    smart_search ctxC6w 2 = some (Decision.mk "mmr_retrieval" "medium" "REVIEW_BEFORE_ANSWERING"
      ([MMRResult.mk "chunk" "http://example.org/a" "Title A"].map mmrToSearchResult)) ∧
    ∀ r ∈ [MMRResult.mk "chunk" "http://example.org/a" "Title A"].map mmrToSearchResult,
      tierOf r.confidence = Tier.Medium ∧ r.score = none :=
  C6_diversify ctxC6w 2 [mkSafeResult recA 1]
    [MMRResult.mk "chunk" "http://example.org/a" "Title A"]
    (by with_unfolding_all rfl) (by with_unfolding_all rfl)
    (by with_unfolding_all decide) (by with_unfolding_all decide)
    (by with_unfolding_all rfl)

theorem buildDocs_eq_some {metadata : List MetaRecord} {ids : List ℤ}
    (hids : ∀ i ∈ ids, 0 ≤ i) :
    buildDocs metadata ids =
      some ((ids.filter fun i => i < (metadata.length : ℤ)).map (docAt metadata)) := by
  unfold buildDocs
  apply mapOption_eq_some_map
  intro i hi
  have hmem : i ∈ ids := (List.mem_filter.1 hi).1
  have hlt : i < (metadata.length : ℤ) := of_decide_eq_true (List.mem_filter.1 hi).2
  obtain ⟨m, hm⟩ := pyGet_eq_some_of_nonneg (hids i hmem) hlt
  rw [hm]
  unfold docAt
  rw [hm]
  rfl

/-- C9: if reconstructing any candidate's stored vector fails, the whole MMR
operation falls back to the first `k` candidates in the order the index search
returned them (filtered by the metadata-bounds guard), and a result list is
still produced rather than an error propagating to the caller. -/
theorem C9_reconstruction_fallback (ctx : RAGContext) (k : Nat) (lam : ℚ)
    (hfail : mapOption ctx.reconstructFn
      ((ctx.searchFn (min (k * 2) ctx.ntotal)).map Prod.fst) = none)
    (hids : ∀ i ∈ (ctx.searchFn (min (k * 2) ctx.ntotal)).map Prod.fst, 0 ≤ i) :
    advanced_mmr_retrieval ctx k lam =
      some ((((ctx.searchFn (min (k * 2) ctx.ntotal)).map Prod.fst).take k
        |>.filter fun i => i < (ctx.metadata.length : ℤ)).map (docAt ctx.metadata)) := by
  unfold advanced_mmr_retrieval
  simp only [hfail]
  exact buildDocs_eq_some fun i hi => hids i (List.mem_of_mem_take hi)

/-- C9 witness: an index whose `reconstruct` raises makes
`advanced_mmr_retrieval` return the plain top-k list. -/
theorem C9_reconstruction_fallback_witness :
    advanced_mmr_retrieval ctxC9w 3 0.8 =
      some [MMRResult.mk "chunk" "http://example.org/a" "Title A"] := by
  have h := C9_reconstruction_fallback ctxC9w 3 0.8 (by with_unfolding_all rfl)
    (by with_unfolding_all decide)
  rw [h]
  with_unfolding_all rfl

/-- C10: in `safe_search`, a search-result identifier is skipped exactly when
it is `≥` the metadata table length; the sentinel identifier `-1` passes this
guard, so a result is fabricated from the LAST metadata record by negative
indexing — and when the metadata table is empty, an `IndexError` (modelled as
`none`) is raised instead. -/
theorem C10_sentinel_guard (metadata : List MetaRecord) (i : ℤ) (d : ℚ)
    (rest : List (ℤ × ℚ)) :
    ((metadata.length : ℤ) ≤ i →
      safe_search metadata ((i, d) :: rest) = safe_search metadata rest) ∧
    (∀ h : metadata ≠ [], ∀ rs, safe_search metadata rest = some rs →
      safe_search metadata ((-1, d) :: rest) =
        some (mkSafeResult (metadata.getLast h) d :: rs)) ∧
    (metadata = [] → safe_search metadata ((-1, d) :: rest) = none) := by
  refine ⟨fun h => safe_search_skip d rest h, fun h rs hrs => ?_, fun h => ?_⟩
  · have hlen : 0 < metadata.length := List.length_pos.2 h
    exact safe_search_cons_some (by omega) (pyGet_neg_one_getLast metadata h) hrs
  · subst h
    exact safe_search_cons_err (by decide) (pyGet_nil (-1))

/-- C10 witness: on a one-record table the sentinel `-1` fabricates a result
from that last record, and on an empty table it raises. -/
theorem C10_sentinel_guard_witness :
    safe_search [recA] [((-1 : ℤ), 0.9)] = some [mkSafeResult recA 0.9] ∧
    safe_search ([] : List MetaRecord) [((-1 : ℤ), 0.9)] = none := by
  constructor
  · exact (C10_sentinel_guard [recA] (-1) 0.9 []).2.1 (by simp) [] rfl
  · exact (C10_sentinel_guard [] (-1) 0.9 []).2.2 rfl

theorem mmrLoop_length (q : List ℚ) (cands : List (ℤ × List ℚ)) (lam : ℚ) :
    ∀ (t : Nat) (sel : List ℤ) (selEmbs : List (List ℚ)),
      (mmrLoop q cands lam t sel selEmbs).length = sel.length + t := by
  intro t
  induction t with
  | zero => intro sel selEmbs; rfl
  | succ t ih =>
    intro sel selEmbs
    simp only [mmrLoop]
    rw [ih]
    simp only [List.length_append, List.length_cons, List.length_nil]
    omega

theorem nodup_concat_of_not_mem {l : List ℤ} {x : ℤ} (h : l.Nodup) (hx : x ∉ l) :
    (l ++ [x]).Nodup := by
  rw [List.nodup_append]
  exact ⟨h, List.nodup_singleton x, fun a ha hax => hx (by
    rcases List.mem_singleton.1 hax with rfl
    exact ha)⟩

theorem mmr_step_not_selected {q : List ℚ} {cands : List (ℤ × List ℚ)} {lam : ℚ}
    {sel : List ℤ} {selEmbs : List (List ℚ)}
    (hnd : (cands.map Prod.fst).Nodup)
    (hsub : ∀ x ∈ sel, x ∈ cands.map Prod.fst)
    (hselnd : sel.Nodup)
    (hlen : sel.length < cands.length) :
    argmaxFirst (cands.map fun c => mmrScore q lam sel selEmbs c.1 c.2) < cands.length ∧
    (cands.getD (argmaxFirst (cands.map fun c => mmrScore q lam sel selEmbs c.1 c.2))
      (0, [])).1 ∉ sel := by
  set scores := cands.map fun c => mmrScore q lam sel selEmbs c.1 c.2 with hscores
  have hslen : scores.length = cands.length := List.length_map cands _
  have hallsel : ¬ ∀ x ∈ cands.map Prod.fst, x ∈ sel := by
    intro hall
    have hle := (hnd.subperm hall).length_le
    rw [List.length_map] at hle
    omega
  push_neg at hallsel
  obtain ⟨x, hx, hxnot⟩ := hallsel
  obtain ⟨c, hc, rfl⟩ := List.mem_map.1 hx
  have hcscore : mmrScore q lam sel selEmbs c.1 c.2 ∈ scores := List.mem_map_of_mem _ hc
  have hcne : mmrScore q lam sel selEmbs c.1 c.2 ≠ ⊥ := by
    unfold mmrScore
    rw [if_neg hxnot]
    exact WithBot.coe_ne_bot
  have hne : scores ≠ [] := List.ne_nil_of_mem hcscore
  have hlt : argmaxFirst scores < cands.length := hslen ▸ argmaxFirst_lt_length hne
  refine ⟨hlt, ?_⟩
  have hM : scores.getD (argmaxFirst scores) ⊥ = scores.foldl wbMax ⊥ := argmaxFirst_getD hne
  have hMne : scores.foldl wbMax ⊥ ≠ ⊥ := by
    intro hbot
    have hle := le_foldl_max hcscore (⊥ : WithBot ℚ)
    rw [← foldl_wbMax_eq_foldl_max, hbot, le_bot_iff] at hle
    exact hcne hle
  have hgetD : scores.getD (argmaxFirst scores) ⊥ =
      mmrScore q lam sel selEmbs (cands.getD (argmaxFirst scores) (0, [])).1
        (cands.getD (argmaxFirst scores) (0, [])).2 := by
    have hgen : ∀ (j : Nat), j < cands.length →
        (cands.map fun c => mmrScore q lam sel selEmbs c.1 c.2).getD j ⊥ =
          mmrScore q lam sel selEmbs (cands.getD j (0, [])).1 (cands.getD j (0, [])).2 := by
      intro j hj
      rw [List.getD_eq_getElem _ ⊥ (by simpa using hj), List.getElem_map,
        List.getD_eq_getElem cands (0, []) hj]
    exact hgen (argmaxFirst scores) hlt
  intro hmem
  apply hMne
  rw [← hM, hgetD]
  unfold mmrScore
  rw [if_pos hmem]

theorem mmrLoop_nodup (q : List ℚ) (cands : List (ℤ × List ℚ)) (lam : ℚ)
    (hnd : (cands.map Prod.fst).Nodup) :
    ∀ (t : Nat) (sel : List ℤ) (selEmbs : List (List ℚ)),
      sel.Nodup → (∀ x ∈ sel, x ∈ cands.map Prod.fst) → sel.length + t ≤ cands.length →
      (mmrLoop q cands lam t sel selEmbs).Nodup := by
  intro t
  induction t with
  | zero => intro sel selEmbs h1 _ _; exact h1
  | succ t ih =>
    intro sel selEmbs hselnd hsub hlen
    simp only [mmrLoop]
    by_cases hsel : sel.isEmpty
    · rw [if_pos hsel]
      rw [List.isEmpty_iff] at hsel
      subst hsel
      simp only [List.length_nil, Nat.zero_add] at hlen
      have hn : 0 < cands.length := by omega
      have hc0 : cands.getD 0 (0, []) = cands[0] := List.getD_eq_getElem cands (0, []) hn
      apply ih
      · simp
      · intro x hx
        simp only [List.nil_append, List.mem_singleton] at hx
        subst hx
        rw [hc0]
        exact List.mem_map_of_mem Prod.fst (List.getElem_mem hn)
      · simp only [List.nil_append, List.length_cons, List.length_nil]
        omega
    · rw [if_neg hsel]
      have hne : sel ≠ [] := fun h => hsel (by rw [h]; rfl)
      have hlen' : sel.length < cands.length := by omega
      obtain ⟨hb, hbnot⟩ := mmr_step_not_selected hnd hsub hselnd hlen'
      apply ih
      · exact nodup_concat_of_not_mem hselnd hbnot
      · intro x hx
        rcases List.mem_append.1 hx with hx | hx
        · exact hsub x hx
        · rcases List.mem_singleton.1 hx with rfl
          rw [List.getD_eq_getElem cands (0, []) hb]
          exact List.mem_map_of_mem Prod.fst (List.getElem_mem hb)
      · simp only [List.length_append, List.length_cons, List.length_nil]
        omega

/-- C7: for every query vector, candidate pool (with the distinct identifiers
an index search returns), `k` and `lambda`, the MMR selection returns a list
with no duplicate identifiers whose length is at most `min k |candidates|`. -/
theorem C7_mmr_nodup_and_bounded (q : List ℚ) (cands : List (ℤ × List ℚ)) (lam : ℚ)
    (k : Nat) (hnd : (cands.map Prod.fst).Nodup) :
    (mmrSelect q cands lam k).Nodup ∧
    (mmrSelect q cands lam k).length ≤ min k cands.length := by
  constructor
  · exact mmrLoop_nodup q cands lam hnd (min k cands.length) [] []
      (List.nodup_nil) (by intro x hx; cases hx) (by simpa using Nat.min_le_right k cands.length)
  · rw [mmrSelect, mmrLoop_length]
    simp

/-- C7 witness: a three-candidate pool with `k = 2` and `lambda = 0.5`. -/
theorem C7_mmr_nodup_and_bounded_witness :
    (mmrSelect [1, 0] [(0, [1, 0]), (1, [0, 1]), (2, [1, 1])] 0.5 2).Nodup ∧
    (mmrSelect [1, 0] [(0, [1, 0]), (1, [0, 1]), (2, [1, 1])] 0.5 2).length ≤
      min 2 [(0, [1, 0]), (1, [0, 1]), (2, [1, 1])].length :=
  C7_mmr_nodup_and_bounded [1, 0] [(0, [1, 0]), (1, [0, 1]), (2, [1, 1])] 0.5 2 (by decide)

theorem mmrScore_lambda_one (q : List ℚ) (sel : List ℤ) (selEmbs : List (List ℚ))
    (cid : ℤ) (cemb : List ℚ) :
    mmrScore q 1 sel selEmbs cid cemb =
      if cid ∈ sel then ⊥ else ((dotQ q cemb : ℚ) : WithBot ℚ) := by
  unfold mmrScore
  split
  · rfl
  · congr 1
    ring

theorem getElem_mem_take_iff {ids : List ℤ} (hnd : ids.Nodup) {j s : Nat}
    (hj : j < ids.length) : ids[j] ∈ ids.take s ↔ j < s := by
  constructor
  · intro hmem
    obtain ⟨j', hj', hEq⟩ := List.getElem_of_mem hmem
    rw [List.getElem_take] at hEq
    have hlen := List.length_take s ids
    have hj'' := (List.Nodup.getElem_inj_iff hnd).mp hEq
    omega
  · intro hlt
    have h2 : j < (ids.take s).length := by
      rw [List.length_take]
      omega
    have h3 : (ids.take s)[j] = ids[j] := List.getElem_take ids
    rw [← h3]
    exact List.getElem_mem h2

theorem mmrScore_take_shape {q : List ℚ} {cands : List (ℤ × List ℚ)} {s : Nat}
    (hnd : (cands.map Prod.fst).Nodup) (selEmbs : List (List ℚ)) {j : Nat}
    (hj : j < cands.length) :
    (cands.map fun c =>
        mmrScore q 1 ((cands.map Prod.fst).take s) selEmbs c.1 c.2).getD j ⊥ =
      if j < s then ⊥ else ((dotQ q (cands.getD j (0, [])).2 : ℚ) : WithBot ℚ) := by
  have hgen : (cands.map fun c =>
      mmrScore q 1 ((cands.map Prod.fst).take s) selEmbs c.1 c.2).getD j ⊥ =
      mmrScore q 1 ((cands.map Prod.fst).take s) selEmbs (cands.getD j (0, [])).1
        (cands.getD j (0, [])).2 := by
    rw [List.getD_eq_getElem _ ⊥ (by simpa using hj), List.getElem_map,
      List.getD_eq_getElem cands (0, []) hj]
  rw [hgen, mmrScore_lambda_one]
  have hjm : j < (cands.map Prod.fst).length := by simpa using hj
  have hidj : (cands.getD j (0, [])).1 = (cands.map Prod.fst)[j] := by
    rw [List.getElem_map, List.getD_eq_getElem cands (0, []) hj]
  have hmem : ((cands.getD j (0, [])).1 ∈ (cands.map Prod.fst).take s) ↔ j < s := by
    rw [hidj]
    exact getElem_mem_take_iff hnd (by simpa using hj)
  by_cases hjs : j < s
  · rw [if_pos (hmem.2 hjs), if_pos hjs]
  · rw [if_neg fun hm => hjs (hmem.1 hm), if_neg hjs]

theorem argmax_step_sorted {q : List ℚ} {cands : List (ℤ × List ℚ)} {s : Nat}
    (hnd : (cands.map Prod.fst).Nodup)
    (hsorted : List.Pairwise (· ≥ ·) (cands.map fun c => dotQ q c.2))
    (hsn : s < cands.length) (selEmbs : List (List ℚ)) :
    argmaxFirst (cands.map fun c =>
      mmrScore q 1 ((cands.map Prod.fst).take s) selEmbs c.1 c.2) = s := by
  set scores := cands.map fun c =>
    mmrScore q 1 ((cands.map Prod.fst).take s) selEmbs c.1 c.2 with hscores
  have hslen : scores.length = cands.length := by rw [hscores, List.length_map]
  have hshape : ∀ (j : Nat), j < cands.length → scores.getD j ⊥ =
      if j < s then ⊥ else ((dotQ q (cands.getD j (0, [])).2 : ℚ) : WithBot ℚ) := by
    intro j hj
    rw [hscores]
    exact mmrScore_take_shape hnd selEmbs hj
  have hSs : scores.getD s ⊥ = ((dotQ q (cands.getD s (0, [])).2 : ℚ) : WithBot ℚ) := by
    rw [hshape s hsn, if_neg (by omega)]
  have hrel : ∀ (j : Nat), j < cands.length → s ≤ j →
      dotQ q (cands.getD j (0, [])).2 ≤ dotQ q (cands.getD s (0, [])).2 := by
    intro j hj hsj
    rcases Nat.eq_or_lt_of_le hsj with rfl | hlt
    · exact le_refl _
    · have hpw := List.pairwise_iff_getElem.1 hsorted s j (by simpa using hsn)
        (by simpa using hj) hlt
      rw [List.getElem_map, List.getElem_map] at hpw
      rw [List.getD_eq_getElem cands (0, []) hj, List.getD_eq_getElem cands (0, []) hsn]
      exact hpw
  have hub : ∀ x ∈ scores, x ≤ ((dotQ q (cands.getD s (0, [])).2 : ℚ) : WithBot ℚ) := by
    intro x hx
    obtain ⟨j, hj, hxe⟩ := List.getElem_of_mem hx
    have hj' : j < cands.length := by omega
    have hxd : x = scores.getD j ⊥ := by rw [List.getD_eq_getElem scores ⊥ hj, hxe]
    rw [hxd, hshape j hj']
    by_cases hjs : j < s
    · rw [if_pos hjs]
      exact bot_le
    · rw [if_neg hjs]
      exact WithBot.coe_le_coe.2 (hrel j hj' (by omega))
  have hmemS : ((dotQ q (cands.getD s (0, [])).2 : ℚ) : WithBot ℚ) ∈ scores := by
    rw [← hSs, List.getD_eq_getElem scores ⊥ (by omega)]
    exact List.getElem_mem (by omega)
  have hmax : scores.foldl wbMax ⊥ = ((dotQ q (cands.getD s (0, [])).2 : ℚ) : WithBot ℚ) := by
    rw [foldl_wbMax_eq_foldl_max]
    refine le_antisymm ?_ (le_foldl_max hmemS ⊥)
    rcases foldl_max_mem scores ⊥ with h | h
    · exact hub _ h
    · rw [h]
      exact bot_le
  have hne : scores ≠ [] := by
    intro h
    rw [h] at hslen
    simp at hslen
    omega
  have hlt := argmaxFirst_lt_length hne
  have hval := argmaxFirst_getD hne
  rcases Nat.lt_trichotomy (argmaxFirst scores) s with h | h | h
  · exfalso
    have hbot : scores.getD (argmaxFirst scores) ⊥ = ⊥ := by
      rw [hshape (argmaxFirst scores) (by omega), if_pos h]
    rw [hval, hmax] at hbot
    exact WithBot.coe_ne_bot hbot
  · exact h
  · exfalso
    have hne2 := argmaxFirst_first h
    rw [hSs, hmax] at hne2
    exact hne2 rfl

theorem take_min_eq_take (ids : List ℤ) (k : Nat) :
    ids.take (min k ids.length) = ids.take k := by
  rcases le_or_lt k ids.length with hk | hk
  · rw [min_eq_left hk]
  · rw [min_eq_right (le_of_lt hk), List.take_length, List.take_of_length_le (le_of_lt hk)]

theorem take_append_getD (cands : List (ℤ × List ℚ)) (s : Nat) (hs : s < cands.length) :
    ((cands.map Prod.fst).take s) ++ [(cands.getD s (0, [])).1] =
      (cands.map Prod.fst).take (s + 1) := by
  have hsID : s < (cands.map Prod.fst).length := by simpa using hs
  rw [← List.take_concat_get (cands.map Prod.fst) s hsID, List.concat_eq_append]
  congr 2
  rw [List.getElem_map, List.getD_eq_getElem cands (0, []) hs]

theorem mmrLoop_lambda_one (q : List ℚ) (cands : List (ℤ × List ℚ))
    (hnd : (cands.map Prod.fst).Nodup)
    (hsorted : List.Pairwise (· ≥ ·) (cands.map fun c => dotQ q c.2)) :
    ∀ (t s : Nat) (selEmbs : List (List ℚ)), s + t ≤ cands.length →
      mmrLoop q cands 1 t ((cands.map Prod.fst).take s) selEmbs =
        (cands.map Prod.fst).take (s + t) := by
  intro t
  induction t with
  | zero => intro s selEmbs _; rfl
  | succ t ih =>
    intro s selEmbs hst
    have hn : 0 < cands.length := by omega
    have hsn : s < cands.length := by omega
    simp only [mmrLoop]
    by_cases hsel : ((cands.map Prod.fst).take s).isEmpty
    · rw [if_pos hsel]
      have hs0 : s = 0 := by
        rw [List.isEmpty_iff] at hsel
        have := congrArg List.length hsel
        rw [List.length_take, List.length_nil, List.length_map] at this
        omega
      subst hs0
      rw [take_append_getD cands 0 hn]
      rw [show (0 : Nat) + (t + 1) = 1 + t from by omega]
      exact ih 1 _ (by omega)
    · rw [if_neg hsel]
      rw [argmax_step_sorted hnd hsorted hsn selEmbs]
      rw [take_append_getD cands s hsn]
      rw [show s + (t + 1) = (s + 1) + t from by omega]
      exact ih (s + 1) _ (by omega)

theorem topkByRelevance_of_sorted (q : List ℚ) (cands : List (ℤ × List ℚ)) (k : Nat)
    (hsorted : List.Pairwise (· ≥ ·) (cands.map fun c => dotQ q c.2)) :
    topkByRelevance q cands k = (cands.take k).map Prod.fst := by
  unfold topkByRelevance
  rw [List.mergeSort_of_sorted]
  rw [List.pairwise_map] at hsorted
  exact hsorted.imp fun h => decide_eq_true h

/-- C8: with `lambda = 1.0` the MMR selection's output order equals the
top-k-by-relevance order, where relevance is the dot product of a candidate's
reconstructed vector with the query vector and ties are broken by the original
rank the index search returned (the hypotheses state exactly what the index
search contract supplies: distinct identifiers, candidates already in
decreasing-relevance order). -/
theorem C8_lambda_one_pure_relevance (q : List ℚ) (cands : List (ℤ × List ℚ)) (k : Nat)
    (hnd : (cands.map Prod.fst).Nodup)
    (hsorted : List.Pairwise (· ≥ ·) (cands.map fun c => dotQ q c.2)) :
    mmrSelect q cands 1 k = topkByRelevance q cands k := by
  rw [topkByRelevance_of_sorted q cands k hsorted]
  have h := mmrLoop_lambda_one q cands hnd hsorted (min k cands.length) 0 []
    (by simpa using Nat.min_le_right k cands.length)
  rw [List.take_zero, Nat.zero_add] at h
  unfold mmrSelect
  rw [h, List.map_take]
  rw [show min k cands.length = min k (cands.map Prod.fst).length from by rw [List.length_map]]
  exact take_min_eq_take (cands.map Prod.fst) k

/-- C8 witness: three candidates already sorted by relevance (dot products
1, 1, 0 — with a tie kept in search-rank order) and `k = 2`. -/
theorem C8_lambda_one_pure_relevance_witness :
    mmrSelect [1, 0] [(0, [1, 0]), (1, [1, 0]), (2, [0, 1])] 1 2 =
      topkByRelevance [1, 0] [(0, [1, 0]), (1, [1, 0]), (2, [0, 1])] 2 :=
  C8_lambda_one_pure_relevance [1, 0] [(0, [1, 0]), (1, [1, 0]), (2, [0, 1])] 2
    (by decide) (by with_unfolding_all decide)
